import Mathlib

/-!
Verification of the retrieval pipeline in `RAG-TASK DAY-5`.

Text is modelled as `List Char`, floating-point vectors as lists of
rationals.  Python functions from `app.py` live in namespace `App`,
functions from `RAG app.py` in namespace `RagApp`; helpers shared by both
scripts (Python `str` methods, FAISS flat-index behaviour) are at top
level.
-/

/-- Python `str.strip()` whitespace test: space, tab, newline, carriage
return, vertical tab, form feed. -/
def pySpace (c : Char) : Bool :=
  c == ' ' || c == '\t' || c == '\n' || c == '\r' || c == '\x0b' || c == '\x0c'

/-- Python `text.strip()`: remove leading and trailing whitespace. -/
def strip (l : List Char) : List Char :=
  ((l.dropWhile pySpace).reverse.dropWhile pySpace).reverse

/-- Characters of `l` that are not whitespace, in order. -/
def nonWS (l : List Char) : List Char :=
  l.filter (fun c => !pySpace c)

/-- Prepend a character to the first block of a split result (used while
scanning for separator occurrences). -/
def consHead (c : Char) : List (List Char) → List (List Char)
  | [] => [[c]]
  | p :: ps => (c :: p) :: ps

/-- Scanner for Python `text.split(sep)` with non-empty separator
`a :: as`: at each position, if the separator is a prefix of the rest the
current part ends and the separator characters are skipped, otherwise the
character joins the current part.  `fuel` bounds the scan so the
recursion is structural; any `fuel ≥ length of the input` gives the exact
Python behaviour (leftmost, non-overlapping occurrences). -/
def splitGo (a : Char) (as : List Char) : Nat → List Char → List (List Char)
  | _, [] => [[]]
  | 0, l => [l]
  | fuel + 1, c :: rest =>
    if (a :: as).isPrefixOf (c :: rest) then
      [] :: splitGo a as fuel ((c :: rest).drop (as.length + 1))
    else
      consHead c (splitGo a as fuel rest)

/-- Python `l.split(sep)` for a non-empty separator string.  (Python
raises on an empty separator; the `[]` case here returns the input whole
and is never used by the pipeline, whose separators are ["\n\n", "."].) -/
def splitOn (sep l : List Char) : List (List Char) :=
  match sep with
  | [] => [l]
  | a :: as => splitGo a as l.length l

/-- Parts interleaved with the separator: `joinSep sep (l.split sep) = l`. -/
def joinSep (sep : List Char) : List (List Char) → List Char
  | [] => []
  | [p] => p
  | p :: q :: qs => p ++ sep ++ joinSep sep (q :: qs)

namespace App

/-- From `app.py`: recursively split text into chunks under `max_len`.
Strips the text; emits it whole if short enough or if no separators
remain; otherwise splits on the first separator and, for each non-empty
stripped part, either emits it (if within bound) or recurses with the
remaining separators. -/
def recursive_chunk : List Char → List (List Char) → Nat → List (List Char)
  | text, [], _ => [strip text]
  | text, sep :: seps, max_len =>
    let t := strip text
    if t.length ≤ max_len then [t]
    else
      ((splitOn sep t).map (fun part =>
        let p := strip part
        if p = [] then []
        else if max_len < p.length then recursive_chunk p seps max_len
        else [p])).flatten

/-- Default separator list of `chunk_text`: paragraph break, then full stop. -/
def defaultSeparators : List (List Char) := [['\n', '\n'], ['.']]

/-- Aggregate chunk list of `chunk_text` before the emptiness check:
chunk every page and keep the chunks with non-whitespace content. -/
def chunk_text_chunks (pages : List (List Char)) (max_len : Nat)
    (separators : List (List Char)) : List (List Char) :=
  (pages.map (fun t =>
    (recursive_chunk t separators max_len).filter
      (fun c => !(strip c).isEmpty))).flatten

end App


-- ### Vectors, FAISS flat indexes, and the two search paths ----------------

/-- Embedding vector: floating-point values modelled as rationals. -/
abbrev Vec := List Rat

/-- Inner product of two vectors. -/
def dot (u v : Vec) : Rat :=
  (List.zipWith (fun a b => a * b) u v).sum

/-- Squared Euclidean distance, the score an `IndexFlatL2` returns. -/
def sqdist (u v : Vec) : Rat :=
  (List.zipWith (fun a b => (a - b) * (a - b)) u v).sum

/-- Squared L2 norm; a vector is L2-normalized exactly when this is 1. -/
def normSq (v : Vec) : Rat :=
  (v.map (fun x => x * x)).sum

/-- Ascending order by a rational key.  Python's stable `sorted` with
`reverse=True` is `List.insertionSort` under the negated key. -/
def keyOrder {α : Type} (key : α → Rat) : α → α → Prop :=
  fun a b => key a ≤ key b

instance {α : Type} (key : α → Rat) : DecidableRel (keyOrder key) :=
  fun a b => inferInstanceAs (Decidable (key a ≤ key b))

instance {α : Type} (key : α → Rat) : IsTotal α (keyOrder key) :=
  ⟨fun a b => le_total (key a) (key b)⟩

instance {α : Type} (key : α → Rat) : IsTrans α (keyOrder key) :=
  ⟨fun _ _ _ => le_trans⟩

/-- Key order refined by the position tag: strictly smaller key first, and
on key ties the smaller original index first.  Sorting index-tagged
entries by this order characterises a stable sort. -/
def lexOrder {α : Type} (key : α → Rat) : (Nat × α) → (Nat × α) → Prop :=
  fun p q => key p.2 < key q.2 ∨ (key p.2 = key q.2 ∧ p.1 ≤ q.1)

instance {α : Type} (key : α → Rat) : DecidableRel (lexOrder key) :=
  fun p q => inferInstanceAs (Decidable (_ ∨ _))

/-- Scores of all stored vectors against a query under the inner-product
metric, tagged with their ids (insertion order). -/
def scoredIP (xs : List Vec) (q : Vec) : List (Int × Rat) :=
  xs.enum.map (fun p => ((p.1 : Int), dot q p.2))

/-- Scores of all stored vectors against a query under squared Euclidean
distance, tagged with their ids. -/
def scoredL2 (xs : List Vec) (q : Vec) : List (Int × Rat) :=
  xs.enum.map (fun p => ((p.1 : Int), sqdist q p.2))

/-- Modelled from the spec and the FAISS library (external dependency, not
part of this repository's sources): exact search over a flat
inner-product index.  Scores every stored vector, sorts descending by
score, returns the best `k` rows; when `k` exceeds the number of stored
vectors the surplus rows are padding with sentinel id `-1` (the score
slot of a padding row is irrelevant here and modelled as 0). -/
def faissSearchIP (xs : List Vec) (q : Vec) (k : Nat) : List (Int × Rat) :=
  (List.insertionSort (keyOrder (fun p : Int × Rat => -p.2)) (scoredIP xs q)).take k
    ++ List.replicate (k - xs.length) (-1, 0)

/-- Modelled from the spec and the FAISS library (external dependency):
exact search over a flat L2 index, ascending by squared distance, padded
with sentinel id `-1` when `k` exceeds the number of stored vectors. -/
def faissSearchL2 (xs : List Vec) (q : Vec) (k : Nat) : List (Int × Rat) :=
  (List.insertionSort (keyOrder (fun p : Int × Rat => p.2)) (scoredL2 xs q)).take k
    ++ List.replicate (k - xs.length) (-1, 0)

/-- Python list indexing `l[i]`: negative indexes reach from the end;
`none` is an IndexError. -/
def pyIndex {α : Type} (l : List α) (i : Int) : Option α :=
  if 0 ≤ i then l[i.toNat]?
  else if 0 ≤ (l.length : Int) + i then l[((l.length : Int) + i).toNat]?
  else none

/-- Resolve a list of Python indexes against a list, as a comprehension
`[l[i] for i in ids]` does: the first IndexError (`none`) aborts the
whole resolution. -/
def resolveAll {α : Type} (l : List α) : List Int → Option (List α)
  | [] => some []
  | i :: ids =>
    match pyIndex l i, resolveAll l ids with
    | some t, some ts => some (t :: ts)
    | _, _ => none

namespace App

/-- Failure classes of the `app.py` pipeline, named as in the design
taxonomy: `extractionEmpty` is the ValueError "PDF extraction failed — no
text found" raised by `extract_text_from_pdf`; `emptyInput` is the
ValueError "Chunking failed — no chunks created" raised by `chunk_text`
(the spec's `EmptyInputError`); `embeddingEmpty` is the ValueError raised
by `generate_embeddings` via `validate_non_empty`; `indexEmpty` is the
ValueError "FAISS index is empty" raised by `build_faiss_index`. -/
inductive PipelineError where
  | extractionEmpty : PipelineError
  | emptyInput : PipelineError
  | embeddingEmpty : PipelineError
  | indexEmpty : PipelineError
deriving DecidableEq

/-- From `app.py`: chunk every page and fail when no chunk was created. -/
def chunk_text (pages : List (List Char)) (max_len : Nat)
    (separators : List (List Char)) : Except PipelineError (List (List Char)) :=
  let all_chunks := chunk_text_chunks pages max_len separators
  if all_chunks.isEmpty then .error .emptyInput else .ok all_chunks

/-- Persisted artifacts of one `app.py` run: the chunk JSON written by
`save_chunks` and the index file written by `build_faiss_index`. -/
structure FS where
  chunks_json : Option (List (List Char))
  faiss_index : Option (List Vec)
deriving DecidableEq

/-- From `app.py`, `run_pipeline` from extraction through indexing, with
the files written so far threaded explicitly.  `extract_text_from_pdf`
keeps the pages with non-whitespace text and fails when none remain;
`chunk_text` may fail; `save_chunks` then writes the chunk JSON;
`generate_embeddings` applies the external encoder and fails on empty
output; `build_faiss_index` fails on an empty index and writes the index
file.  A raised error aborts the remaining steps, leaving the files as
they were at that point. -/
def run_pipeline (rawPages : List (List Char)) (chunk_size : Nat)
    (encode : List (List Char) → List Vec) (fs : FS) :
    Except PipelineError Unit × FS :=
  let pages := rawPages.filter (fun t => !(strip t).isEmpty)
  if pages.isEmpty then (.error .extractionEmpty, fs)
  else
    match chunk_text pages chunk_size defaultSeparators with
    | .error e => (.error e, fs)
    | .ok chunks =>
      let fs1 : FS := ⟨some chunks, fs.faiss_index⟩
      let embeddings := encode chunks
      if embeddings.isEmpty then (.error .embeddingEmpty, fs1)
      else if embeddings.length = 0 then (.error .indexEmpty, fs1)
      else (.ok (), ⟨some chunks, some embeddings⟩)

/-- One entry of the result list built by `search_with_faiss`. -/
structure FaissHit where
  rank : Nat
  chunk_id : Int
  distance : Rat
  text : List Char
deriving DecidableEq

/-- Result loop of `search_with_faiss`: for each returned id, in rank
order, keep it only when it is below the stored chunk count, resolving
its text by Python indexing; an unresolvable id raises IndexError
(`Except.error`). -/
def collectResults (chunks : List (List Char)) :
    Nat → List (Int × Rat) → Except Unit (List FaissHit)
  | _, [] => .ok []
  | rank, (cid, d) :: rest =>
    if cid < (chunks.length : Int) then
      match pyIndex chunks cid with
      | none => .error ()
      | some t =>
        match collectResults chunks (rank + 1) rest with
        | .error e => .error e
        | .ok rs => .ok (⟨rank + 1, cid, d, t⟩ :: rs)
    else collectResults chunks (rank + 1) rest

/-- From `app.py`: search the L2 flat index with the (unnormalized) query
embedding and build the result list.  File I/O and the query encoding are
outside the model: the query arrives as its embedding vector. -/
def search_with_faiss (stored : List Vec) (q_vec : Vec) (k : Nat)
    (chunks : List (List Char)) : Except Unit (List FaissHit) :=
  collectResults chunks 0 (faissSearchL2 stored q_vec k)

/-- From `app.py`: `write_log` appends to the log file with no exception
handling, so the outcome of the underlying file append is handed to the
caller unchanged — a failing append raises out of `write_log`. -/
def write_log (append : Except Unit Unit) : Except Unit Unit := append

end App

namespace RagApp

/-- FAISS flat inner-product index as used by `RAG app.py`: a dimension
and the stored vectors in insertion order. -/
structure IndexFlatIP where
  d : Nat
  xb : List Vec
deriving DecidableEq

/-- FAISS `index.add`: appends the batch as given. -/
def IndexFlatIP.add (idx : IndexFlatIP) (batch : List Vec) : IndexFlatIP :=
  ⟨idx.d, idx.xb ++ batch⟩

/-- From `RAG app.py`: `build_faiss_index` creates `IndexFlatIP(dim)` and
adds the embedding matrix exactly as given — there is no
`faiss.normalize_L2` call on the embeddings.  (The index-file write is
outside the model.) -/
def build_faiss_index (embeddings : List Vec) : IndexFlatIP :=
  (IndexFlatIP.mk (embeddings.headD []).length []).add embeddings

/-- Candidate filter of `search_pdf`:
`[i for i in ids[0] if i < len(chunks)]`. -/
def candidate_ids (stored : List Vec) (q_vec : Vec) (top_k : Nat)
    (chunks : List (List Char)) : List Int :=
  ((faissSearchIP stored q_vec top_k).map Prod.fst).filter
    (fun i => decide (i < (chunks.length : Int)))

/-- Rerank shortlist of `search_pdf`: `candidate_ids[:rerank_n]`. -/
def rerank_shortlist (stored : List Vec) (q_vec : Vec) (top_k : Nat)
    (chunks : List (List Char)) (rerank_n : Nat) : List Int :=
  (candidate_ids stored q_vec top_k chunks).take rerank_n

/-- From `RAG app.py`: `search_pdf` searches the inner-product index with
the normalized query embedding `q_vec`, keeps candidate ids below the
stored chunk count, scores the first `rerank_n` of them with the
cross-encoder (modelled as the score function `predict`), and returns the
(text, score) pairs sorted by Python's stable `sorted(..., reverse=True)`
on the score.  Resolving a chunk id raises IndexError (`Except.error`)
when out of range for Python indexing. -/
def search_pdf (stored : List Vec) (q_vec : Vec) (chunks : List (List Char))
    (top_k rerank_n : Nat) (predict : List Char → List Char → Rat)
    (query : List Char) : Except Unit (List (List Char × Rat)) :=
  match resolveAll chunks (rerank_shortlist stored q_vec top_k chunks rerank_n) with
  | none => .error ()
  | some texts =>
    .ok (List.insertionSort (keyOrder (fun r : List Char × Rat => -r.2))
      (texts.map (fun t => (t, predict query t))))

/-- From `RAG app.py`: `log_error` wraps its whole body — message
formatting, printing, opening and appending to the log file — in
try/except, so whatever the underlying write does the call returns
normally. -/
def log_error (append : Except Unit Unit) : Except Unit Unit :=
  match append with
  | .ok _ => .ok ()
  | .error _ => .ok ()

end RagApp

deriving instance DecidableEq for Except

-- ### Lemmas about `strip` -------------------------------------------------

theorem dropWhile_spec (p : Char → Bool) (l : List Char) :
    ∃ u, u ++ l.dropWhile p = l ∧ ∀ c ∈ u, p c = true := by
  induction l with
  | nil => exact ⟨[], rfl, by simp⟩
  | cons c ls ih =>
    by_cases h : p c
    · obtain ⟨u, hu, hall⟩ := ih
      refine ⟨c :: u, ?_, ?_⟩
      · simp [List.dropWhile_cons, h, hu]
      · intro d hd
        rcases List.mem_cons.1 hd with rfl | hd
        · exact h
        · exact hall d hd
    · exact ⟨[], by simp [List.dropWhile_cons, h], by simp⟩

theorem filter_dropWhile (p : Char → Bool) (l : List Char) :
    (l.dropWhile p).filter (fun c => !p c) = l.filter (fun c => !p c) := by
  obtain ⟨u, hu, hall⟩ := dropWhile_spec p l
  conv_rhs => rw [← hu]
  rw [List.filter_append]
  have : u.filter (fun c => !p c) = [] := by
    rw [List.filter_eq_nil_iff]
    intro c hc
    simp [hall c hc]
  rw [this, List.nil_append]

theorem nonWS_reverse (l : List Char) : nonWS l.reverse = (nonWS l).reverse := by
  simp [nonWS, List.filter_reverse]

/-- Stripping changes no non-whitespace content. -/
theorem nonWS_strip (l : List Char) : nonWS (strip l) = nonWS l := by
  unfold strip
  rw [nonWS_reverse]
  unfold nonWS
  rw [filter_dropWhile]
  rw [show ((l.dropWhile pySpace).reverse.filter fun c => !pySpace c) =
      nonWS (l.dropWhile pySpace).reverse from rfl]
  rw [nonWS_reverse, List.reverse_reverse]
  unfold nonWS
  rw [filter_dropWhile]

theorem strip_eq_nil_nonWS {l : List Char} (h : strip l = []) : nonWS l = [] := by
  rw [← nonWS_strip, h]
  rfl

/-- The stripped text sits inside the original text. -/
theorem strip_isInfix (l : List Char) : strip l <:+: l := by
  obtain ⟨u, hu, _⟩ := dropWhile_spec pySpace l
  obtain ⟨v, hv, _⟩ := dropWhile_spec pySpace (l.dropWhile pySpace).reverse
  refine ⟨u, v.reverse, ?_⟩
  have : strip l ++ v.reverse = l.dropWhile pySpace := by
    have := congrArg List.reverse hv
    simpa [strip, List.reverse_append] using this
  rw [List.append_assoc, this, hu]

-- ### Lemmas about `splitOn` -----------------------------------------------

theorem splitGo_ne_nil (a : Char) (as : List Char) (fuel : Nat) (l : List Char) :
    splitGo a as fuel l ≠ [] := by
  induction fuel, l using splitGo.induct a as with
  | case1 => simp [splitGo]
  | case2 l h =>
    cases l with
    | nil => simp [splitGo]
    | cons c cs => simp [splitGo]
  | case3 fuel c rest hpre ih => simp [splitGo, hpre]
  | case4 fuel c rest hpre ih =>
    simp only [splitGo, hpre, if_neg, Bool.false_eq_true, not_false_iff]
    cases h : splitGo a as fuel rest with
    | nil => exact absurd h ih
    | cons p ps => simp [consHead]

theorem isPrefixOf_iff {l₁ l₂ : List Char} :
    l₁.isPrefixOf l₂ = true ↔ l₁ <+: l₂ := by
  exact List.isPrefixOf_iff_prefix

theorem joinSep_splitGo (a : Char) (as : List Char) (fuel : Nat) (l : List Char)
    (hf : l.length ≤ fuel) :
    joinSep (a :: as) (splitGo a as fuel l) = l := by
  induction fuel, l using splitGo.induct a as with
  | case1 => simp [splitGo, joinSep]
  | case2 l h =>
    cases l with
    | nil => simp [splitGo, joinSep]
    | cons c cs => simp at hf
  | case3 fuel c rest hpre ih =>
    have hlen : (List.drop (as.length + 1) (c :: rest)).length ≤ fuel := by
      simp only [List.length_drop, List.length_cons]
      simp only [List.length_cons] at hf
      omega
    have hrec := ih (by simpa using hlen)
    simp only [splitGo, hpre, if_pos]
    obtain ⟨p, ps, hps⟩ : ∃ p ps, splitGo a as fuel (List.drop (as.length + 1) (c :: rest)) = p :: ps := by
      cases h : splitGo a as fuel (List.drop (as.length + 1) (c :: rest)) with
      | nil => exact absurd h (splitGo_ne_nil a as fuel _)
      | cons p ps => exact ⟨p, ps, rfl⟩
    rw [hps] at hrec ⊢
    show joinSep (a :: as) ([] :: p :: ps) = c :: rest
    have hpre' : (a :: as) <+: (c :: rest) := isPrefixOf_iff.1 hpre
    obtain ⟨t, ht⟩ := hpre'
    have hdrop : List.drop (as.length + 1) (c :: rest) = t := by
      have : List.drop (a :: as).length ((a :: as) ++ t) = t := List.drop_left _ _
      simpa [ht] using this
    rw [hdrop] at hrec
    calc joinSep (a :: as) ([] :: p :: ps)
        = (a :: as) ++ joinSep (a :: as) (p :: ps) := by simp [joinSep]
      _ = (a :: as) ++ t := by rw [hrec]
      _ = c :: rest := ht
  | case4 fuel c rest hpre ih =>
    simp only [List.length_cons] at hf
    have hrec := ih (by omega)
    simp only [splitGo, hpre, if_neg, Bool.false_eq_true, not_false_iff]
    obtain ⟨p, ps, hps⟩ : ∃ p ps, splitGo a as fuel rest = p :: ps := by
      cases h : splitGo a as fuel rest with
      | nil => exact absurd h (splitGo_ne_nil a as fuel rest)
      | cons p ps => exact ⟨p, ps, rfl⟩
    rw [hps] at hrec ⊢
    cases ps with
    | nil =>
      simp only [joinSep] at hrec
      simp [consHead, joinSep, hrec]
    | cons q qs =>
      show joinSep (a :: as) ((c :: p) :: q :: qs) = c :: rest
      simp only [joinSep] at hrec ⊢
      rw [← hrec]
      simp

/-- Splitting then rejoining with the separator restores the text. -/
theorem joinSep_splitOn (sep l : List Char) :
    joinSep sep (splitOn sep l) = l := by
  cases sep with
  | nil => simp [splitOn, joinSep]
  | cons a as => exact joinSep_splitGo a as l.length l le_rfl

theorem splitGo_first_prefix (a : Char) (as : List Char) (fuel : Nat) (l : List Char) :
    ∃ p ps t, splitGo a as fuel l = p :: ps ∧ p ++ t = l := by
  induction fuel, l using splitGo.induct a as with
  | case1 => exact ⟨[], [], [], by simp [splitGo]⟩
  | case2 l h =>
    cases l with
    | nil => exact ⟨[], [], [], by simp [splitGo]⟩
    | cons c cs => exact ⟨c :: cs, [], [], by simp [splitGo]⟩
  | case3 fuel c rest hpre ih =>
    refine ⟨[], splitGo a as fuel ((c :: rest).drop (as.length + 1)), c :: rest, ?_, rfl⟩
    simp [splitGo, hpre]
  | case4 fuel c rest hpre ih =>
    obtain ⟨p, ps, t, hps, hpt⟩ := ih
    refine ⟨c :: p, ps, t, ?_, by simp [hpt]⟩
    simp [splitGo, hpre, hps, consHead]

theorem splitGo_sepFree (a : Char) (as : List Char) (fuel : Nat) (l : List Char)
    (hf : l.length ≤ fuel) :
    ∀ p ∈ splitGo a as fuel l, ¬ (a :: as) <:+: p := by
  induction fuel, l using splitGo.induct a as with
  | case1 =>
    intro p hp
    simp only [splitGo, List.mem_singleton] at hp
    subst hp
    rintro ⟨u, v, huv⟩
    simp at huv
  | case2 l h =>
    cases l with
    | nil =>
      intro p hp
      simp only [splitGo, List.mem_singleton] at hp
      subst hp
      rintro ⟨u, v, huv⟩
      simp at huv
    | cons c cs => simp at hf
  | case3 fuel c rest hpre ih =>
    have hlen : (List.drop (as.length + 1) (c :: rest)).length ≤ fuel := by
      simp only [List.length_drop, List.length_cons]
      simp only [List.length_cons] at hf
      omega
    intro p hp
    simp only [splitGo, hpre, if_pos, List.mem_cons] at hp
    rcases hp with rfl | hp
    · rintro ⟨u, v, huv⟩
      simp at huv
    · exact ih (by simpa using hlen) p hp
  | case4 fuel c rest hpre ih =>
    simp only [List.length_cons] at hf
    have ih' := ih (by omega)
    obtain ⟨p₀, ps, t, hps, hpt⟩ := splitGo_first_prefix a as fuel rest
    intro p hp
    simp only [splitGo, hpre, if_neg, Bool.false_eq_true, not_false_iff, hps,
      consHead, List.mem_cons] at hp
    rcases hp with rfl | hp
    · rintro ⟨u, v, huv⟩
      cases u with
      | nil =>
        simp only [List.nil_append] at huv
        have : (a :: as).isPrefixOf (c :: rest) = true := by
          refine isPrefixOf_iff.2 ⟨v ++ t, ?_⟩
          calc (a :: as) ++ (v ++ t) = ((a :: as) ++ v) ++ t := by rw [List.append_assoc]
            _ = (c :: p₀) ++ t := by rw [huv]
            _ = c :: rest := by simp [hpt]
        exact absurd this (by simpa using hpre)
      | cons d u' =>
        have h' : d :: (u' ++ ((a :: as) ++ v)) = c :: p₀ := by
          simpa [List.append_assoc] using huv
        have h2 : u' ++ ((a :: as) ++ v) = p₀ := (List.cons_eq_cons.1 h').2
        exact ih' p₀ (by rw [hps]; exact List.mem_cons_self _ _)
          ⟨u', v, by rw [List.append_assoc]; exact h2⟩
    · exact ih' p (by rw [hps]; exact List.mem_cons_of_mem _ hp)

theorem splitGo_eq_single (a : Char) (as : List Char) (fuel : Nat) (l : List Char)
    (h : ¬ (a :: as) <:+: l) :
    splitGo a as fuel l = [l] := by
  induction fuel, l using splitGo.induct a as with
  | case1 => simp [splitGo]
  | case2 l hl =>
    cases l with
    | nil => simp [splitGo]
    | cons c cs => simp [splitGo]
  | case3 fuel c rest hpre ih =>
    exact absurd ⟨[], (isPrefixOf_iff.1 hpre).choose,
      by simpa using (isPrefixOf_iff.1 hpre).choose_spec⟩ h
  | case4 fuel c rest hpre ih =>
    have hrest : ¬ (a :: as) <:+: rest := by
      rintro ⟨u, v, huv⟩
      exact h ⟨c :: u, v, by simp [huv]⟩
    rw [splitGo]
    simp only [hpre, if_neg, Bool.false_eq_true, not_false_iff]
    rw [ih hrest]
    rfl

theorem splitOn_ne_nil (sep l : List Char) : splitOn sep l ≠ [] := by
  cases sep with
  | nil => simp [splitOn]
  | cons a as => exact splitGo_ne_nil a as l.length l

/-- No part produced by a split contains the separator. -/
theorem splitOn_sepFree {sep : List Char} (hsep : sep ≠ []) (l : List Char) :
    ∀ p ∈ splitOn sep l, ¬ sep <:+: p := by
  cases sep with
  | nil => exact absurd rfl hsep
  | cons a as => exact splitGo_sepFree a as l.length l le_rfl

/-- A text not containing the separator splits into itself alone. -/
theorem splitOn_eq_single {sep l : List Char} (h : ¬ sep <:+: l) :
    splitOn sep l = [l] := by
  cases sep with
  | nil => exact absurd ⟨[], l, rfl⟩ h
  | cons a as => exact splitGo_eq_single a as l.length l h

theorem mem_joinSep_isInfix (sep : List Char) {ps : List (List Char)} :
    ∀ p ∈ ps, p <:+: joinSep sep ps := by
  induction ps with
  | nil => simp
  | cons q qs ih =>
    intro p hp
    rcases List.mem_cons.1 hp with rfl | hp
    · cases qs with
      | nil => exact ⟨[], [], by simp [joinSep]⟩
      | cons r rs => exact ⟨[], sep ++ joinSep sep (r :: rs), by simp [joinSep]⟩
    · obtain ⟨u, v, huv⟩ := ih p hp
      cases qs with
      | nil => simp at hp
      | cons r rs =>
        exact ⟨(q ++ sep) ++ u, v, by simp only [joinSep]; rw [← huv]; simp⟩

/-- Every part of a split is a contiguous piece of the original text. -/
theorem splitOn_part_isInfix {sep l : List Char} :
    ∀ p ∈ splitOn sep l, p <:+: l := by
  intro p hp
  have := mem_joinSep_isInfix sep p hp
  rwa [joinSep_splitOn] at this

theorem flatten_sublist_joinSep (sep : List Char) (ps : List (List Char)) :
    ps.flatten.Sublist (joinSep sep ps) := by
  induction ps with
  | nil => simp [joinSep]
  | cons q qs ih =>
    cases qs with
    | nil => simp [joinSep]
    | cons r rs =>
      simp only [List.flatten_cons, joinSep, List.append_assoc]
      exact (List.Sublist.refl q).append
        (ih.trans (List.sublist_append_right sep _))


-- ### Lemmas about `recursive_chunk` ---------------------------------------

theorem flatten_flatten {α : Type} (L : List (List (List α))) :
    L.flatten.flatten = (L.map List.flatten).flatten := by
  induction L with
  | nil => rfl
  | cons x xs ih => simp [List.flatten_append, ih]

theorem flatten_map_sublist {α β : Type} (g h : β → List α) (xs : List β)
    (H : ∀ x ∈ xs, (g x).Sublist (h x)) :
    ((xs.map g).flatten).Sublist ((xs.map h).flatten) := by
  induction xs with
  | nil => simp
  | cons x xs ih =>
    simp only [List.map_cons, List.flatten_cons]
    exact (H x (List.mem_cons_self _ _)).append
      (ih fun y hy => H y (List.mem_cons_of_mem _ hy))

theorem nonWS_joinSep {sep : List Char} (hsep : ∀ c ∈ sep, pySpace c = true)
    (ps : List (List Char)) : nonWS (joinSep sep ps) = nonWS ps.flatten := by
  have hsepnil : sep.filter (fun c => !pySpace c) = [] := by
    rw [List.filter_eq_nil_iff]
    intro c hc
    simp [hsep c hc]
  induction ps with
  | nil => rfl
  | cons q qs ih =>
    cases qs with
    | nil => simp [joinSep, nonWS]
    | cons r rs =>
      show nonWS (q ++ sep ++ joinSep sep (r :: rs)) = nonWS ((q :: r :: rs).flatten)
      simp only [nonWS, List.filter_append, List.flatten_cons] at ih ⊢
      rw [hsepnil, ih]
      simp

namespace App

theorem recursive_chunk_nil (text : List Char) (max_len : Nat) :
    recursive_chunk text [] max_len = [strip text] := rfl

theorem recursive_chunk_small {text : List Char} {sep : List Char}
    {seps : List (List Char)} {max_len : Nat}
    (h : (strip text).length ≤ max_len) :
    recursive_chunk text (sep :: seps) max_len = [strip text] := by
  simp only [recursive_chunk]
  rw [if_pos h]

theorem recursive_chunk_big {text : List Char} {sep : List Char}
    {seps : List (List Char)} {max_len : Nat}
    (h : ¬ (strip text).length ≤ max_len) :
    recursive_chunk text (sep :: seps) max_len =
      ((splitOn sep (strip text)).map (fun part =>
        if strip part = [] then []
        else if max_len < (strip part).length then
          recursive_chunk (strip part) seps max_len
        else [strip part])).flatten := by
  simp only [recursive_chunk]
  rw [if_neg h]

/-- Every chunk is a contiguous piece of the stripped input text. -/
theorem recursive_chunk_isInfix (text : List Char) (seps : List (List Char))
    (max_len : Nat) :
    ∀ c ∈ recursive_chunk text seps max_len, c <:+: strip text := by
  induction text, seps, max_len using recursive_chunk.induct with
  | case1 text max_len =>
    intro c hc
    rw [recursive_chunk_nil, List.mem_singleton] at hc
    subst hc
    exact ⟨[], [], by simp⟩
  | case2 text sep seps max_len t h =>
    intro c hc
    rw [recursive_chunk_small h, List.mem_singleton] at hc
    subst hc
    exact ⟨[], [], by simp⟩
  | case3 text sep seps max_len t h ih =>
    intro c hc
    rw [recursive_chunk_big h, List.mem_flatten] at hc
    obtain ⟨lc, hlc, hclc⟩ := hc
    rw [List.mem_map] at hlc
    obtain ⟨part, hpart, rfl⟩ := hlc
    have hpinf : part <:+: strip text := splitOn_part_isInfix part hpart
    by_cases hnil : strip part = []
    · rw [if_pos hnil] at hclc
      simp at hclc
    · rw [if_neg hnil] at hclc
      by_cases hbig : max_len < (strip part).length
      · rw [if_pos hbig] at hclc
        have h1 : c <:+: strip (strip part) := ih part c hclc
        exact (((h1.trans (strip_isInfix _)).trans (strip_isInfix _))).trans hpinf
      · rw [if_neg hbig] at hclc
        rw [List.mem_singleton] at hclc
        subst hclc
        exact (strip_isInfix part).trans hpinf

end App

theorem nonWS_flatten (L : List (List Char)) :
    nonWS L.flatten = (L.map nonWS).flatten := by
  rw [nonWS, List.filter_flatten]
  rfl

namespace App

/-- Concatenating the chunks keeps the surviving non-whitespace characters
in input order, each at most once (a sublist of the input's
non-whitespace characters). -/
theorem nonWS_recursive_chunk_sublist (text : List Char) (seps : List (List Char))
    (max_len : Nat) :
    (nonWS ((recursive_chunk text seps max_len).flatten)).Sublist (nonWS text) := by
  induction text, seps, max_len using recursive_chunk.induct with
  | case1 text max_len =>
    rw [recursive_chunk_nil]
    simp only [List.flatten_cons, List.flatten_nil, List.append_nil]
    rw [nonWS_strip]
  | case2 text sep seps max_len t h =>
    rw [recursive_chunk_small h]
    simp only [List.flatten_cons, List.flatten_nil, List.append_nil]
    rw [nonWS_strip]
  | case3 text sep seps max_len t h ih =>
    rw [recursive_chunk_big h]
    rw [flatten_flatten, List.map_map, nonWS_flatten, List.map_map]
    have hpoint : ∀ part ∈ splitOn sep (strip text),
        (nonWS ((if strip part = [] then []
          else if max_len < (strip part).length then
            recursive_chunk (strip part) seps max_len
          else [strip part]).flatten)).Sublist (nonWS part) := by
      intro part hpart
      by_cases hnil : strip part = []
      · rw [if_pos hnil]
        exact List.nil_sublist _
      · rw [if_neg hnil]
        by_cases hbig : max_len < (strip part).length
        · rw [if_pos hbig]
          have hthis : (nonWS ((recursive_chunk (strip part) seps max_len).flatten)).Sublist
              (nonWS (strip part)) := ih part
          rwa [nonWS_strip] at hthis
        · rw [if_neg hbig]
          simp only [List.flatten_cons, List.flatten_nil, List.append_nil]
          rw [nonWS_strip]
    have hstep := flatten_map_sublist _ nonWS (splitOn sep (strip text)) hpoint
    refine hstep.trans ?_
    rw [← nonWS_flatten]
    have h2 := (flatten_sublist_joinSep sep (splitOn sep (strip text))).filter
      (fun c => !pySpace c)
    rw [joinSep_splitOn] at h2
    have h3 : nonWS (strip text) = nonWS text := nonWS_strip text
    rw [← h3]
    exact h2

/-- When every separator consists only of whitespace, chunking loses no
non-whitespace character at all. -/
theorem nonWS_recursive_chunk_eq (text : List Char) (seps : List (List Char))
    (max_len : Nat) :
    (∀ s ∈ seps, ∀ c ∈ s, pySpace c = true) →
    nonWS ((recursive_chunk text seps max_len).flatten) = nonWS text := by
  induction text, seps, max_len using recursive_chunk.induct with
  | case1 text max_len =>
    intro _
    rw [recursive_chunk_nil]
    simp only [List.flatten_cons, List.flatten_nil, List.append_nil]
    rw [nonWS_strip]
  | case2 text sep seps max_len t h =>
    intro _
    rw [recursive_chunk_small h]
    simp only [List.flatten_cons, List.flatten_nil, List.append_nil]
    rw [nonWS_strip]
  | case3 text sep seps max_len t h ih =>
    intro hws
    rw [recursive_chunk_big h]
    rw [flatten_flatten, List.map_map, nonWS_flatten, List.map_map]
    have hpoint : ∀ part ∈ splitOn sep (strip text),
        nonWS ((if strip part = [] then []
          else if max_len < (strip part).length then
            recursive_chunk (strip part) seps max_len
          else [strip part]).flatten) = nonWS part := by
      intro part hpart
      by_cases hnil : strip part = []
      · rw [if_pos hnil]
        have hthis : nonWS part = [] := strip_eq_nil_nonWS hnil
        simp only [List.flatten_nil]
        rw [hthis]
        rfl
      · rw [if_neg hnil]
        by_cases hbig : max_len < (strip part).length
        · rw [if_pos hbig]
          have hthis : nonWS ((recursive_chunk (strip part) seps max_len).flatten) =
              nonWS (strip part) := ih part (fun s hs => hws s (List.mem_cons_of_mem _ hs))
          rwa [nonWS_strip] at hthis
        · rw [if_neg hbig]
          simp only [List.flatten_cons, List.flatten_nil, List.append_nil]
          rw [nonWS_strip]
    have hmap : List.map (nonWS ∘ List.flatten ∘ fun part =>
        if strip part = [] then []
        else if max_len < (strip part).length then
          recursive_chunk (strip part) seps max_len
        else [strip part]) (splitOn sep (strip text)) =
      List.map nonWS (splitOn sep (strip text)) := List.map_congr_left hpoint
    rw [hmap]
    rw [← nonWS_flatten]
    rw [← nonWS_joinSep (hws sep (List.mem_cons_self _ _)) (splitOn sep (strip text))]
    rw [joinSep_splitOn]
    exact nonWS_strip text

/-- Every chunk is within the length bound, or no separator of the given
list occurs in it (so none of them can split it further). -/
theorem recursive_chunk_bound (text : List Char) (seps : List (List Char))
    (max_len : Nat) :
    (∀ s ∈ seps, s ≠ []) →
    ∀ c ∈ recursive_chunk text seps max_len,
      c.length ≤ max_len ∨ ∀ s ∈ seps, splitOn s c = [c] := by
  induction text, seps, max_len using recursive_chunk.induct with
  | case1 text max_len =>
    intro _ c hc
    right
    simp
  | case2 text sep seps max_len t h =>
    intro _ c hc
    rw [recursive_chunk_small h, List.mem_singleton] at hc
    subst hc
    exact Or.inl h
  | case3 text sep seps max_len t h ih =>
    intro hs c hc
    rw [recursive_chunk_big h, List.mem_flatten] at hc
    obtain ⟨lc, hlc, hclc⟩ := hc
    rw [List.mem_map] at hlc
    obtain ⟨part, hpart, rfl⟩ := hlc
    by_cases hnil : strip part = []
    · rw [if_pos hnil] at hclc
      simp at hclc
    · rw [if_neg hnil] at hclc
      by_cases hbig : max_len < (strip part).length
      · rw [if_pos hbig] at hclc
        rcases ih part (fun s hsm => hs s (List.mem_cons_of_mem _ hsm)) c hclc with
          hlen | hfree
        · exact Or.inl hlen
        · right
          intro s hsm
          rcases List.mem_cons.1 hsm with rfl | hsm
          · have hpfree : ¬ s <:+: part :=
              splitOn_sepFree (hs s (List.mem_cons_self _ _)) (strip text) part hpart
            have hcinf : c <:+: part :=
              ((recursive_chunk_isInfix (strip part) seps max_len c hclc).trans
                (strip_isInfix _)).trans (strip_isInfix part)
            exact splitOn_eq_single (fun hcon => hpfree (hcon.trans hcinf))
          · exact hfree s hsm
      · rw [if_neg hbig] at hclc
        rw [List.mem_singleton] at hclc
        subst hclc
        exact Or.inl (by omega)

end App

-- ### Stable sorting -------------------------------------------------------

theorem orderedInsert_cons {α : Type} (r : α → α → Prop) [DecidableRel r]
    (a b : α) (l : List α) :
    List.orderedInsert r a (b :: l) =
      if r a b then a :: b :: l else b :: List.orderedInsert r a l := rfl

theorem orderedInsert_lex_map {α : Type} (key : α → Rat) (n : Nat) (x : α) :
    ∀ (L : List (Nat × α)), (∀ p ∈ L, n < p.1) →
      (List.orderedInsert (lexOrder key) (n, x) L).map Prod.snd =
        List.orderedInsert (keyOrder key) x (L.map Prod.snd) := by
  intro L
  induction L with
  | nil => intro _; simp [List.orderedInsert]
  | cons q L ih =>
    intro hL
    obtain ⟨m, y⟩ := q
    have hn : n < m := hL (m, y) (List.mem_cons_self _ _)
    have hiff : lexOrder key (n, x) (m, y) ↔ keyOrder key x y := by
      unfold lexOrder keyOrder
      constructor
      · rintro (hlt | ⟨heq, _⟩)
        · exact le_of_lt hlt
        · exact le_of_eq heq
      · intro hle
        rcases lt_or_eq_of_le hle with hlt | heq
        · exact Or.inl hlt
        · exact Or.inr ⟨heq, le_of_lt hn⟩
    by_cases h : lexOrder key (n, x) (m, y)
    · rw [orderedInsert_cons, if_pos h]
      simp only [List.map_cons]
      rw [orderedInsert_cons, if_pos (hiff.1 h)]
    · rw [orderedInsert_cons, if_neg h]
      simp only [List.map_cons]
      rw [orderedInsert_cons, if_neg (fun hc => h (hiff.2 hc))]
      rw [ih (fun p hp => hL p (List.mem_cons_of_mem _ hp))]

theorem insertionSort_enumFrom_stable {α : Type} (key : α → Rat) :
    ∀ (l : List α) (n : Nat),
      List.insertionSort (keyOrder key) l =
        (List.insertionSort (lexOrder key) (List.enumFrom n l)).map Prod.snd := by
  intro l
  induction l with
  | nil => intro n; simp
  | cons x xs ih =>
    intro n
    have hcons : List.enumFrom n (x :: xs) = (n, x) :: List.enumFrom (n + 1) xs := by
      simp [List.enumFrom]
    rw [hcons]
    rw [List.insertionSort, List.insertionSort]
    have hidx : ∀ p ∈ List.insertionSort (lexOrder key) (List.enumFrom (n + 1) xs),
        n < p.1 := by
      intro p hp
      have hmem : p ∈ List.enumFrom (n + 1) xs :=
        (List.perm_insertionSort (lexOrder key) _).subset hp
      obtain ⟨i, a⟩ := p
      have := (List.mem_enumFrom hmem).1
      omega
    rw [orderedInsert_lex_map key n x _ hidx, ← ih (n + 1)]

/-- Python's stable `sorted` characterised: sorting by key equals sorting
the position-tagged list by (key, position) and dropping the tags. -/
theorem insertionSort_stable {α : Type} (key : α → Rat) (l : List α) :
    List.insertionSort (keyOrder key) l =
      (List.insertionSort (lexOrder key) l.enum).map Prod.snd := by
  have := insertionSort_enumFrom_stable key l 0
  simpa [List.enum] using this

-- ### FAISS flat search lemmas ---------------------------------------------

theorem scoredIP_id_bounds (xs : List Vec) (q : Vec) :
    ∀ p ∈ scoredIP xs q, 0 ≤ p.1 ∧ p.1 < (xs.length : Int) := by
  intro p hp
  rw [scoredIP, List.mem_map] at hp
  obtain ⟨⟨i, v⟩, hiv, rfl⟩ := hp
  have : i < xs.length := by
    have h1 : (i, v) ∈ List.enumFrom 0 xs := by simpa [List.enum] using hiv
    have := (List.mem_enumFrom h1).2.1
    omega
  refine ⟨Int.ofNat_nonneg i, ?_⟩
  show (i : Int) < (xs.length : Int)
  exact_mod_cast this

theorem scoredL2_id_bounds (xs : List Vec) (q : Vec) :
    ∀ p ∈ scoredL2 xs q, 0 ≤ p.1 ∧ p.1 < (xs.length : Int) := by
  intro p hp
  rw [scoredL2, List.mem_map] at hp
  obtain ⟨⟨i, v⟩, hiv, rfl⟩ := hp
  have : i < xs.length := by
    have h1 : (i, v) ∈ List.enumFrom 0 xs := by simpa [List.enum] using hiv
    have := (List.mem_enumFrom h1).2.1
    omega
  refine ⟨Int.ofNat_nonneg i, ?_⟩
  show (i : Int) < (xs.length : Int)
  exact_mod_cast this

theorem mem_take_sort_pad {key : (Int × Rat) → Rat} {scored : List (Int × Rat)}
    {k m : Nat} {bnd : Int}
    (hb : ∀ p ∈ scored, 0 ≤ p.1 ∧ p.1 < bnd) :
    ∀ p ∈ (List.insertionSort (keyOrder key) scored).take k
        ++ List.replicate m ((-1 : Int), (0 : Rat)),
      p.1 = -1 ∨ (0 ≤ p.1 ∧ p.1 < bnd) := by
  intro p hp
  rcases List.mem_append.1 hp with hp | hp
  · right
    exact hb p ((List.perm_insertionSort (keyOrder key) scored).subset
      ((List.take_sublist _ _).subset hp))
  · left
    have := List.eq_of_mem_replicate hp
    rw [this]

theorem faissSearchIP_id_cases (xs : List Vec) (q : Vec) (k : Nat) :
    ∀ p ∈ faissSearchIP xs q k,
      p.1 = -1 ∨ (0 ≤ p.1 ∧ p.1 < (xs.length : Int)) := by
  intro p hp
  exact mem_take_sort_pad (scoredIP_id_bounds xs q) p hp

theorem faissSearchL2_id_cases (xs : List Vec) (q : Vec) (k : Nat) :
    ∀ p ∈ faissSearchL2 xs q k,
      p.1 = -1 ∨ (0 ≤ p.1 ∧ p.1 < (xs.length : Int)) := by
  intro p hp
  exact mem_take_sort_pad (scoredL2_id_bounds xs q) p hp

theorem length_scoredIP (xs : List Vec) (q : Vec) : (scoredIP xs q).length = xs.length := by
  simp [scoredIP]

theorem length_scoredL2 (xs : List Vec) (q : Vec) : (scoredL2 xs q).length = xs.length := by
  simp [scoredL2]

theorem length_faissSearchIP (xs : List Vec) (q : Vec) (k : Nat) :
    (faissSearchIP xs q k).length = k := by
  simp only [faissSearchIP, List.length_append, List.length_take,
    List.length_insertionSort, length_scoredIP, List.length_replicate]
  omega

theorem length_faissSearchL2 (xs : List Vec) (q : Vec) (k : Nat) :
    (faissSearchL2 xs q k).length = k := by
  simp only [faissSearchL2, List.length_append, List.length_take,
    List.length_insertionSort, length_scoredL2, List.length_replicate]
  omega

theorem pyIndex_isSome {α : Type} {l : List α} {i : Int} (hne : l ≠ [])
    (h1 : -1 ≤ i) (h2 : i < (l.length : Int)) : pyIndex l i ≠ none := by
  have hlen : 0 < l.length := List.length_pos.2 hne
  unfold pyIndex
  by_cases h0 : 0 ≤ i
  · rw [if_pos h0]
    have hlt : i.toNat < l.length := by omega
    simp [List.getElem?_eq_getElem hlt]
  · rw [if_neg h0]
    have hi : i = -1 := by omega
    subst hi
    have hc : 0 ≤ (l.length : Int) + (-1) := by omega
    rw [if_pos hc]
    have hlt : ((l.length : Int) + (-1)).toNat < l.length := by omega
    simp [List.getElem?_eq_getElem hlt]

theorem take_at_length {α : Type} (A B : List α) (n : Nat) (h : A.length = n) :
    (A ++ B).take n = A := by
  subst h
  rw [List.take_left]

theorem drop_at_length {α : Type} (A B : List α) (n : Nat) (h : A.length = n) :
    (A ++ B).drop n = B := by
  subst h
  rw [List.drop_left]

namespace App

theorem collectResults_spec (chunks : List (List Char)) :
    ∀ (pairs : List (Int × Rat)) (r0 : Nat),
      (∀ p ∈ pairs, p.1 < (chunks.length : Int) → pyIndex chunks p.1 ≠ none) →
      ∃ res, collectResults chunks r0 pairs = .ok res ∧
        res.map (fun h => (h.chunk_id, h.distance)) =
          pairs.filter (fun p => decide (p.1 < (chunks.length : Int))) ∧
        res.length ≤ pairs.length ∧
        (∀ h ∈ res, r0 < h.rank) ∧
        List.Pairwise (fun a b => a.rank < b.rank) res := by
  intro pairs
  induction pairs with
  | nil =>
    intro r0 _
    exact ⟨[], by simp [collectResults], by simp, by simp, by simp, by simp⟩
  | cons pd rest ih =>
    intro r0 hres
    obtain ⟨cid, d⟩ := pd
    by_cases hc : cid < (chunks.length : Int)
    · have hpy : pyIndex chunks cid ≠ none :=
        hres (cid, d) (List.mem_cons_self _ _) hc
      obtain ⟨t, ht⟩ := Option.ne_none_iff_exists'.1 hpy
      obtain ⟨res, hok, hmap, hlen, hrk, hpw⟩ :=
        ih (r0 + 1) (fun p hp => hres p (List.mem_cons_of_mem _ hp))
      refine ⟨⟨r0 + 1, cid, d, t⟩ :: res, ?_, ?_, ?_, ?_, ?_⟩
      · simp only [collectResults, if_pos hc, ht, hok]
      · simp [List.map_cons, List.filter_cons, hc, hmap]
      · simpa using Nat.succ_le_succ hlen
      · intro h hh
        rcases List.mem_cons.1 hh with rfl | hh
        · simp
        · have := hrk h hh
          omega
      · exact List.Pairwise.cons (fun h hh => hrk h hh) hpw
    · obtain ⟨res, hok, hmap, hlen, hrk, hpw⟩ :=
        ih (r0 + 1) (fun p hp => hres p (List.mem_cons_of_mem _ hp))
      refine ⟨res, ?_, ?_, ?_, ?_, hpw⟩
      · simp only [collectResults, if_neg hc, hok]
      · simp [List.filter_cons, hc, hmap]
      · exact Nat.le_succ_of_le hlen
      · intro h hh
        have := hrk h hh
        omega

end App

theorem resolveAll_some {α : Type} (chunks : List α) :
    ∀ (ids : List Int), (∀ i ∈ ids, pyIndex chunks i ≠ none) →
      ∃ texts, resolveAll chunks ids = some texts ∧
        List.Forall₂ (fun i t => pyIndex chunks i = some t) ids texts := by
  intro ids
  induction ids with
  | nil => exact fun _ => ⟨[], rfl, List.Forall₂.nil⟩
  | cons i ids ih =>
    intro hres
    obtain ⟨t, ht⟩ := Option.ne_none_iff_exists'.1
      (hres i (List.mem_cons_self _ _))
    obtain ⟨texts, hok, hall⟩ := ih (fun j hj => hres j (List.mem_cons_of_mem _ hj))
    refine ⟨t :: texts, ?_, List.Forall₂.cons ht hall⟩
    simp [resolveAll, ht, hok]

theorem pairwise_take_sort {α : Type} (key : α → Rat) (l : List α) (k : Nat) :
    List.Pairwise (keyOrder key) ((List.insertionSort (keyOrder key) l).take k) :=
  List.Pairwise.sublist (List.take_sublist _ _)
    (List.sorted_insertionSort (keyOrder key) l)

theorem searchPad_take (key : (Int × Rat) → Rat) (scored : List (Int × Rat)) (k m : Nat) :
    ((List.insertionSort (keyOrder key) scored).take k
        ++ List.replicate m ((-1 : Int), (0 : Rat))).take (min k scored.length) =
      (List.insertionSort (keyOrder key) scored).take k :=
  take_at_length _ _ _ (by simp [List.length_take, List.length_insertionSort])

theorem searchPad_drop (key : (Int × Rat) → Rat) (scored : List (Int × Rat)) (k m : Nat) :
    ((List.insertionSort (keyOrder key) scored).take k
        ++ List.replicate m ((-1 : Int), (0 : Rat))).drop (min k scored.length) =
      List.replicate m ((-1 : Int), (0 : Rat)) :=
  drop_at_length _ _ _ (by simp [List.length_take, List.length_insertionSort])

theorem searchPad_perm {key : (Int × Rat) → Rat} (scored : List (Int × Rat)) (k : Nat)
    (h : scored.length ≤ k) :
    ((List.insertionSort (keyOrder key) scored).take k).Perm scored := by
  rw [List.take_of_length_le (by rw [List.length_insertionSort]; exact h)]
  exact List.perm_insertionSort _ _

theorem searchPad_mem {key : (Int × Rat) → Rat} (scored : List (Int × Rat)) (k : Nat) :
    ∀ p ∈ (List.insertionSort (keyOrder key) scored).take k, p ∈ scored :=
  fun p hp => (List.perm_insertionSort (keyOrder key) scored).subset
    ((List.take_sublist _ _).subset hp)

/-- C3 (amended): a flat-index search returns exactly `k` (id, score)
rows; the first `min k N` rows are stored entries sorted by the metric's
ordering rule (descending similarity for inner product, ascending squared
distance for L2), and when `k` exceeds the stored count `N` the remaining
`k − N` rows are sentinel padding with id `-1`, not stored entries; for
`k ≥ N` the non-padding rows are exactly the `N` stored entries. -/
theorem C3_search_ordering_and_padding (xs : List Vec) (q : Vec) (k : Nat) :
    ((faissSearchIP xs q k).length = k ∧
      (faissSearchIP xs q k).take (min k xs.length) =
        (List.insertionSort (keyOrder (fun p : Int × Rat => -p.2)) (scoredIP xs q)).take k ∧
      List.Pairwise (fun a b : Int × Rat => b.2 ≤ a.2)
        ((faissSearchIP xs q k).take (min k xs.length)) ∧
      (∀ p ∈ (faissSearchIP xs q k).take (min k xs.length), p ∈ scoredIP xs q) ∧
      (faissSearchIP xs q k).drop (min k xs.length) =
        List.replicate (k - xs.length) (-1, 0) ∧
      (xs.length ≤ k →
        ((faissSearchIP xs q k).take (min k xs.length)).Perm (scoredIP xs q))) ∧
    ((faissSearchL2 xs q k).length = k ∧
      (faissSearchL2 xs q k).take (min k xs.length) =
        (List.insertionSort (keyOrder (fun p : Int × Rat => p.2)) (scoredL2 xs q)).take k ∧
      List.Pairwise (fun a b : Int × Rat => a.2 ≤ b.2)
        ((faissSearchL2 xs q k).take (min k xs.length)) ∧
      (∀ p ∈ (faissSearchL2 xs q k).take (min k xs.length), p ∈ scoredL2 xs q) ∧
      (faissSearchL2 xs q k).drop (min k xs.length) =
        List.replicate (k - xs.length) (-1, 0) ∧
      (xs.length ≤ k →
        ((faissSearchL2 xs q k).take (min k xs.length)).Perm (scoredL2 xs q))) := by
  have hNIP : (scoredIP xs q).length = xs.length := length_scoredIP xs q
  have hNL2 : (scoredL2 xs q).length = xs.length := length_scoredL2 xs q
  constructor
  · have htake0 := searchPad_take (fun p : Int × Rat => -p.2) (scoredIP xs q)
      k (k - xs.length)
    rw [hNIP] at htake0
    have htake : (faissSearchIP xs q k).take (min k xs.length) =
        (List.insertionSort (keyOrder (fun p : Int × Rat => -p.2)) (scoredIP xs q)).take k :=
      htake0
    have hdrop0 := searchPad_drop (fun p : Int × Rat => -p.2) (scoredIP xs q)
      k (k - xs.length)
    rw [hNIP] at hdrop0
    have hdrop : (faissSearchIP xs q k).drop (min k xs.length) =
        List.replicate (k - xs.length) (-1, 0) := hdrop0
    refine ⟨length_faissSearchIP xs q k, htake, ?_, ?_, hdrop, ?_⟩
    · rw [htake]
      exact (pairwise_take_sort (fun p : Int × Rat => -p.2) (scoredIP xs q) k).imp
        (fun h => neg_le_neg_iff.1 h)
    · rw [htake]
      exact searchPad_mem (scoredIP xs q) k
    · intro hk
      rw [htake]
      exact searchPad_perm (scoredIP xs q) k (by omega)
  · have htake0 := searchPad_take (fun p : Int × Rat => p.2) (scoredL2 xs q)
      k (k - xs.length)
    rw [hNL2] at htake0
    have htake : (faissSearchL2 xs q k).take (min k xs.length) =
        (List.insertionSort (keyOrder (fun p : Int × Rat => p.2)) (scoredL2 xs q)).take k :=
      htake0
    have hdrop0 := searchPad_drop (fun p : Int × Rat => p.2) (scoredL2 xs q)
      k (k - xs.length)
    rw [hNL2] at hdrop0
    have hdrop : (faissSearchL2 xs q k).drop (min k xs.length) =
        List.replicate (k - xs.length) (-1, 0) := hdrop0
    refine ⟨length_faissSearchL2 xs q k, htake, ?_, ?_, hdrop, ?_⟩
    · rw [htake]
      exact pairwise_take_sort (fun p : Int × Rat => p.2) (scoredL2 xs q) k
    · rw [htake]
      exact searchPad_mem (scoredL2 xs q) k
    · intro hk
      rw [htake]
      exact searchPad_perm (scoredL2 xs q) k (by omega)

/-- C3 (counterexample): with one stored vector and `k = 2`, the search
returns two rows, not "exactly the N stored entries": the second row is
the sentinel pair `(-1, 0)`, which is not a stored entry. -/
theorem C3_search_ordering_and_padding_cex :
    faissSearchL2 [[(1 : Rat)]] [(1 : Rat)] 2 = [(0, 0), (-1, 0)] ∧
    (faissSearchL2 [[(1 : Rat)]] [(1 : Rat)] 2).length ≠ 1 ∧
    ((-1 : Int), (0 : Rat)) ∈ faissSearchL2 [[(1 : Rat)]] [(1 : Rat)] 2 ∧
    (∀ p ∈ scoredL2 [[(1 : Rat)]] [(1 : Rat)], p.1 ≠ -1) := by
  have h : faissSearchL2 [[(1 : Rat)]] [(1 : Rat)] 2 = [(0, 0), (-1, 0)] := by
    norm_num [faissSearchL2, scoredL2, sqdist, List.insertionSort, List.orderedInsert,
      List.enum, List.enumFrom, keyOrder]
  refine ⟨h, by rw [h]; simp, by rw [h]; simp, ?_⟩
  intro p hp
  have hp' : p = ((0 : Int), sqdist [(1 : Rat)] [(1 : Rat)]) := by
    simpa [scoredL2, List.enum, List.enumFrom] using hp
  rw [hp']
  simp

/-- C3 (witness): at one stored vector and `k = 2` the theorem's `k ≥ N`
clause applies and the padding clause is non-trivial. -/
theorem C3_search_ordering_and_padding_witness :
    ((faissSearchIP [[(1 : Rat)]] [(1 : Rat)] 2).take
        (min 2 ([[(1 : Rat)]] : List Vec).length)).Perm (scoredIP [[(1 : Rat)]] [(1 : Rat)]) ∧
    (faissSearchL2 [[(1 : Rat)]] [(1 : Rat)] 2).length = 2 :=
  ⟨(C3_search_ordering_and_padding [[(1 : Rat)]] [(1 : Rat)] 2).1.2.2.2.2.2 (by decide),
    (C3_search_ordering_and_padding [[(1 : Rat)]] [(1 : Rat)] 2).2.1⟩

/-- C2 (code bug): `RAG app.py` builds its inner-product index by adding
the embedding matrix exactly as produced — `faiss.normalize_L2` is applied
only to the query, never to the stored vectors — so a non-unit embedding
such as (3, 4) sits in the index with squared norm 25 at search time,
contradicting the requirement that all stored vectors be L2-normalized
for the cosine metric. -/
theorem C2_stored_vectors_not_normalized :
    (∀ embeddings : List Vec, (RagApp.build_faiss_index embeddings).xb = embeddings) ∧
    (RagApp.build_faiss_index [[(3 : Rat), 4]]).xb = [[(3 : Rat), 4]] ∧
    (∃ v ∈ (RagApp.build_faiss_index [[(3 : Rat), 4]]).xb, normSq v = 25 ∧ normSq v ≠ 1) := by
  have hall : ∀ embeddings : List Vec, (RagApp.build_faiss_index embeddings).xb = embeddings := by
    intro embeddings
    simp [RagApp.build_faiss_index, RagApp.IndexFlatIP.add]
  refine ⟨hall, hall _, ⟨[(3 : Rat), 4], ?_, ?_, ?_⟩⟩
  · rw [hall]
    exact List.mem_singleton_self _
  · norm_num [normSq]
  · norm_num [normSq]

/-- C9 (counterexample): `write_log` in `app.py` has no exception
handling, so a failing append to the log file raises out of it instead of
returning normally. -/
theorem C9_logging_cex :
    App.write_log (.error ()) = .error () ∧
    (Except.error () : Except Unit Unit) ≠ .ok () := by
  exact ⟨rfl, by simp⟩

/-- C9 (amended): the `RAG app.py` error logger `log_error` returns
normally whatever the underlying append does (its body is wrapped in
try/except), but the `app.py` pipeline logger `write_log` hands the
append's outcome to its caller unchanged, so a failing write raises past
the caller. -/
theorem C9_logging_amended (a : Except Unit Unit) :
    RagApp.log_error a = .ok () ∧ App.write_log a = a := by
  cases a with
  | ok u => exact ⟨rfl, rfl⟩
  | error e => exact ⟨rfl, rfl⟩

/-- C10: with two stored vectors, two stored chunks and `top_k = 3`, FAISS
pads the result row with sentinel id `-1`; the bound check `i < len(chunks)`
admits `-1`, and Python negative indexing resolves it to the last stored
chunk, so the result list has three entries from a two-chunk store — the
third entry repeats the last chunk although it was never retrieved. -/
theorem C10_sentinel_reaches_last_chunk :
    (faissSearchIP [[(1 : Rat), 0], [0, 1]] [(1 : Rat), 0] 3).map Prod.fst = [0, 1, -1] ∧
    RagApp.candidate_ids [[(1 : Rat), 0], [0, 1]] [(1 : Rat), 0] 3 [['A'], ['B']]
      = [0, 1, -1] ∧
    pyIndex [['A'], ['B']] (-1) = some ['B'] ∧
    RagApp.search_pdf [[(1 : Rat), 0], [0, 1]] [(1 : Rat), 0] [['A'], ['B']] 3 3
      (fun _ _ => 0) ['q'] = .ok [(['A'], 0), (['B'], 0), (['B'], 0)] ∧
    ([['A'], ['B']] : List (List Char)).length = 2 := by
  have hids : (faissSearchIP [[(1 : Rat), 0], [0, 1]] [(1 : Rat), 0] 3).map Prod.fst
      = [0, 1, -1] := by
    norm_num [faissSearchIP, scoredIP, dot, List.insertionSort, List.orderedInsert,
      List.enum, List.enumFrom, keyOrder]
  refine ⟨hids, ?_, by decide, ?_, by decide⟩
  · rw [RagApp.candidate_ids, hids]
    decide
  · norm_num [RagApp.search_pdf, RagApp.rerank_shortlist, RagApp.candidate_ids,
      faissSearchIP, scoredIP, dot, List.insertionSort, List.orderedInsert,
      List.enum, List.enumFrom, keyOrder, pyIndex, resolveAll]

namespace RagApp

theorem shortlist_resolvable (stored : List Vec) (q_vec : Vec) (top_k rerank_n : Nat)
    {chunks : List (List Char)} (hne : chunks ≠ []) :
    ∀ i ∈ rerank_shortlist stored q_vec top_k chunks rerank_n,
      pyIndex chunks i ≠ none := by
  intro i hi
  have hi' : i ∈ candidate_ids stored q_vec top_k chunks :=
    (List.take_sublist _ _).subset hi
  rw [candidate_ids, List.mem_filter] at hi'
  obtain ⟨hmem, hdec⟩ := hi'
  have hlt : i < (chunks.length : Int) := of_decide_eq_true hdec
  rw [List.mem_map] at hmem
  obtain ⟨p, hp, rfl⟩ := hmem
  rcases faissSearchIP_id_cases stored q_vec top_k p hp with h1 | ⟨h1, _⟩
  · exact pyIndex_isSome hne (by omega) hlt
  · exact pyIndex_isSome hne (by omega) hlt

end RagApp

/-- C4: the reranker stage scores a shortlist of exactly
`min rerank_top_n (number of retrieved candidates)` texts and returns
those same scored candidates (a permutation) re-sorted in descending
order of rerank score; Python's `sorted(..., reverse=True)` is stable, so
ties between equal scores keep the original retrieval order — captured by
the equality with the position-tagged lexicographic sort. -/
theorem C4_rerank_shortlist_stable (stored : List Vec) (q_vec : Vec)
    (chunks : List (List Char)) (top_k rerank_n : Nat)
    (predict : List Char → List Char → Rat) (query : List Char)
    (hne : chunks ≠ []) :
    ∃ texts,
      resolveAll chunks (RagApp.rerank_shortlist stored q_vec top_k chunks rerank_n)
        = some texts ∧
      texts.length = min rerank_n (RagApp.candidate_ids stored q_vec top_k chunks).length ∧
      RagApp.search_pdf stored q_vec chunks top_k rerank_n predict query =
        .ok (List.insertionSort (keyOrder (fun r : List Char × Rat => -r.2))
          (texts.map (fun t => (t, predict query t)))) ∧
      (List.insertionSort (keyOrder (fun r : List Char × Rat => -r.2))
        (texts.map (fun t => (t, predict query t)))).Perm
        (texts.map (fun t => (t, predict query t))) ∧
      List.Pairwise (fun a b : List Char × Rat => b.2 ≤ a.2)
        (List.insertionSort (keyOrder (fun r : List Char × Rat => -r.2))
          (texts.map (fun t => (t, predict query t)))) ∧
      List.insertionSort (keyOrder (fun r : List Char × Rat => -r.2))
          (texts.map (fun t => (t, predict query t))) =
        (List.insertionSort (lexOrder (fun r : List Char × Rat => -r.2))
          (texts.map (fun t => (t, predict query t))).enum).map Prod.snd := by
  obtain ⟨texts, hok, hall⟩ := resolveAll_some chunks _
    (RagApp.shortlist_resolvable stored q_vec top_k rerank_n hne)
  refine ⟨texts, hok, ?_, ?_, ?_, ?_, ?_⟩
  · rw [hall.length_eq.symm]
    rw [RagApp.rerank_shortlist, List.length_take]
  · rw [RagApp.search_pdf, hok]
  · exact List.perm_insertionSort _ _
  · exact (List.sorted_insertionSort (keyOrder (fun r : List Char × Rat => -r.2)) _).imp
      (fun h => neg_le_neg_iff.1 h)
  · exact insertionSort_stable (fun r : List Char × Rat => -r.2) _

/-- C4 (witness): a concrete run of the reranker stage. -/
theorem C4_rerank_shortlist_stable_witness :
    ∃ texts,
      resolveAll [['x']] (RagApp.rerank_shortlist [[(1 : Rat)]] [(1 : Rat)] 1 [['x']] 1)
        = some texts ∧
      texts.length = min 1 (RagApp.candidate_ids [[(1 : Rat)]] [(1 : Rat)] 1 [['x']]).length ∧
      RagApp.search_pdf [[(1 : Rat)]] [(1 : Rat)] [['x']] 1 1
          (fun _ _ => (0 : Rat)) ['q'] =
        .ok (List.insertionSort (keyOrder (fun r : List Char × Rat => -r.2))
          (texts.map (fun t => (t, (fun _ _ => (0 : Rat)) ['q'] t)))) ∧
      (List.insertionSort (keyOrder (fun r : List Char × Rat => -r.2))
        (texts.map (fun t => (t, (fun _ _ => (0 : Rat)) ['q'] t)))).Perm
        (texts.map (fun t => (t, (fun _ _ => (0 : Rat)) ['q'] t))) ∧
      List.Pairwise (fun a b : List Char × Rat => b.2 ≤ a.2)
        (List.insertionSort (keyOrder (fun r : List Char × Rat => -r.2))
          (texts.map (fun t => (t, (fun _ _ => (0 : Rat)) ['q'] t)))) ∧
      List.insertionSort (keyOrder (fun r : List Char × Rat => -r.2))
          (texts.map (fun t => (t, (fun _ _ => (0 : Rat)) ['q'] t))) =
        (List.insertionSort (lexOrder (fun r : List Char × Rat => -r.2))
          (texts.map (fun t => (t, (fun _ _ => (0 : Rat)) ['q'] t))).enum).map Prod.snd :=
  C4_rerank_shortlist_stable [[(1 : Rat)]] [(1 : Rat)] [['x']] 1 1
    (fun _ _ => (0 : Rat)) ['q'] (by decide)

/-- C5: ids at or above the stored chunk count are dropped from the result
set rather than failing the query: the result resolves successfully, its
(id, distance) rows are exactly the search rows that pass the bound
check, in order, its length is at most the requested `k`, and ranks
strictly increase; the RAG-app candidate filter likewise keeps only ids
below the stored chunk count. -/
theorem C5_out_of_range_candidates_dropped (stored : List Vec) (q_vec : Vec) (k : Nat)
    (chunks : List (List Char)) (hne : chunks ≠ []) :
    (∃ res, App.search_with_faiss stored q_vec k chunks = .ok res ∧
      res.map (fun h => (h.chunk_id, h.distance)) =
        (faissSearchL2 stored q_vec k).filter
          (fun p => decide (p.1 < (chunks.length : Int))) ∧
      res.length ≤ k ∧
      (∀ h ∈ res, h.chunk_id < (chunks.length : Int)) ∧
      List.Pairwise (fun a b : App.FaissHit => a.rank < b.rank) res) ∧
    (∀ i ∈ RagApp.candidate_ids stored q_vec k chunks, i < (chunks.length : Int)) := by
  constructor
  · have hres : ∀ p ∈ faissSearchL2 stored q_vec k,
        p.1 < (chunks.length : Int) → pyIndex chunks p.1 ≠ none := by
      intro p hp hlt
      rcases faissSearchL2_id_cases stored q_vec k p hp with h1 | ⟨h1, _⟩
      · exact pyIndex_isSome hne (by omega) hlt
      · exact pyIndex_isSome hne (by omega) hlt
    obtain ⟨res, hok, hmap, hlen, _, hpw⟩ :=
      App.collectResults_spec chunks (faissSearchL2 stored q_vec k) 0 hres
    refine ⟨res, hok, hmap, ?_, ?_, hpw⟩
    · calc res.length ≤ (faissSearchL2 stored q_vec k).length := hlen
        _ = k := length_faissSearchL2 stored q_vec k
    · intro h hh
      have hmem : (h.chunk_id, h.distance) ∈ res.map (fun h => (h.chunk_id, h.distance)) :=
        List.mem_map_of_mem _ hh
      rw [hmap] at hmem
      exact of_decide_eq_true (List.mem_filter.1 hmem).2
  · intro i hi
    rw [RagApp.candidate_ids, List.mem_filter] at hi
    exact of_decide_eq_true hi.2

/-- C5 (witness): two stored vectors against a single-chunk store — the
candidate with id 1 is dropped, the query still succeeds with a
shorter-than-requested result. -/
theorem C5_out_of_range_candidates_dropped_witness :
    (∃ res, App.search_with_faiss [[(1 : Rat)], [(2 : Rat)]] [(1 : Rat)] 2 [['x']]
        = .ok res ∧
      res.map (fun h => (h.chunk_id, h.distance)) =
        (faissSearchL2 [[(1 : Rat)], [(2 : Rat)]] [(1 : Rat)] 2).filter
          (fun p => decide (p.1 < (([['x']] : List (List Char)).length : Int))) ∧
      res.length ≤ 2 ∧
      (∀ h ∈ res, h.chunk_id < (([['x']] : List (List Char)).length : Int)) ∧
      List.Pairwise (fun a b : App.FaissHit => a.rank < b.rank) res) ∧
    (∀ i ∈ RagApp.candidate_ids [[(1 : Rat)], [(2 : Rat)]] [(1 : Rat)] 2 [['x']],
      i < (([['x']] : List (List Char)).length : Int)) :=
  C5_out_of_range_candidates_dropped [[(1 : Rat)], [(2 : Rat)]] [(1 : Rat)] 2 [['x']]
    (by decide)

/-- C7 (amended): when extraction leaves at least one non-blank page but
chunking produces an empty aggregate (for instance a page of dots with a
small chunk size), the run aborts with the empty-input error and the
stored artifacts are exactly as before the run — nothing is written. -/
theorem C7_empty_chunking_aborts (rawPages : List (List Char)) (chunk_size : Nat)
    (encode : List (List Char) → List Vec) (fs : App.FS)
    (hpages : (rawPages.filter (fun t => !(strip t).isEmpty)).isEmpty = false)
    (hempty : App.chunk_text_chunks (rawPages.filter (fun t => !(strip t).isEmpty))
      chunk_size App.defaultSeparators = []) :
    App.run_pipeline rawPages chunk_size encode fs = (.error .emptyInput, fs) := by
  have hct : App.chunk_text (rawPages.filter (fun t => !(strip t).isEmpty)) chunk_size
      App.defaultSeparators = .error .emptyInput := by
    simp only [App.chunk_text]
    rw [hempty]
    simp
  simp only [App.run_pipeline, hpages, hct]
  simp

/-- C7 (counterexample): with every page blank the pipeline does not reach
chunking at all — extraction raises its own "no text found" error first,
so the error signalled is not the empty-input (empty chunking) error the
claim names; no artifacts are written either way. -/
theorem C7_empty_chunking_aborts_cex :
    App.run_pipeline [[' '], []] 400 (fun _ => [[(1 : Rat)]]) ⟨none, none⟩
      = (.error .extractionEmpty, ⟨none, none⟩) ∧
    App.PipelineError.extractionEmpty ≠ App.PipelineError.emptyInput := by
  exact ⟨by decide, by decide⟩

/-- C7 (witness): a page of dots with chunk size 1 passes extraction but
chunks to nothing, so the run aborts with the empty-input error and
writes nothing. -/
theorem C7_empty_chunking_aborts_witness :
    App.run_pipeline [['.', '.', '.']] 1 (fun _ => [[(1 : Rat)]]) ⟨none, none⟩
      = (.error .emptyInput, ⟨none, none⟩) :=
  C7_empty_chunking_aborts [['.', '.', '.']] 1 (fun _ => [[(1 : Rat)]]) ⟨none, none⟩
    (by decide) (by decide)

/-- C8 (amended): failures at extraction or chunking persist nothing, but
the chunk store is written by `save_chunks` before embedding runs, so a
failure at the embedding stage leaves the freshly written chunk JSON
behind while the index file is untouched — the rebuild is not atomic and
a mismatched chunk-store/index pair can be left on disk. -/
theorem C8_failure_persistence (rawPages : List (List Char)) (chunk_size : Nat)
    (encode : List (List Char) → List Vec) (fs : App.FS)
    (r : Except App.PipelineError Unit) (fs' : App.FS)
    (h : App.run_pipeline rawPages chunk_size encode fs = (r, fs')) :
    (r = .error .extractionEmpty ∨ r = .error .emptyInput → fs' = fs) ∧
    (r = .error .embeddingEmpty →
      ∃ chunks, App.chunk_text (rawPages.filter (fun t => !(strip t).isEmpty)) chunk_size
          App.defaultSeparators = .ok chunks ∧
        fs' = ⟨some chunks, fs.faiss_index⟩) := by
  simp only [App.run_pipeline] at h
  by_cases hp : (rawPages.filter (fun t => !(strip t).isEmpty)).isEmpty
  · rw [if_pos hp] at h
    injection h with h1 h2
    constructor
    · intro _
      exact h2.symm
    · intro hc
      rw [← h1] at hc
      exact absurd hc (by simp)
  · rw [if_neg hp] at h
    cases hct : App.chunk_text (rawPages.filter (fun t => !(strip t).isEmpty)) chunk_size
        App.defaultSeparators with
    | error e =>
      simp only [hct] at h
      injection h with h1 h2
      have he : e = App.PipelineError.emptyInput := by
        simp only [App.chunk_text] at hct
        split at hct
        · injection hct with hct'
          exact hct'.symm
        · exact absurd hct (by simp)
      constructor
      · intro _
        exact h2.symm
      · intro hc
        rw [← h1, he] at hc
        exact absurd hc (by simp)
    | ok chunks =>
      simp only [hct] at h
      by_cases he : (encode chunks).isEmpty
      · rw [if_pos he] at h
        injection h with h1 h2
        constructor
        · intro hc
          rcases hc with hc | hc <;> rw [← h1] at hc <;> exact absurd hc (by simp)
        · intro _
          exact ⟨chunks, rfl, h2.symm⟩
      · rw [if_neg he] at h
        have hlen : ¬ (encode chunks).length = 0 := by
          intro h0
          exact he (by simp [List.isEmpty_iff, List.length_eq_zero.1 h0])
        rw [if_neg hlen] at h
        injection h with h1 h2
        constructor
        · intro hc
          rcases hc with hc | hc <;> rw [← h1] at hc <;> exact absurd hc (by simp)
        · intro hc
          rw [← h1] at hc
          exact absurd hc (by simp)

/-- C8 (counterexample): a failing embedding model (empty output) aborts
the run — but the freshly written chunk JSON is already on disk while no
index was written, so a partial artifact survives a stage failure. -/
theorem C8_failure_persistence_cex :
    App.run_pipeline [['a', 'b']] 400 (fun _ => []) ⟨none, none⟩
      = (.error .embeddingEmpty, ⟨some [['a', 'b']], none⟩) ∧
    (some [['a', 'b']] : Option (List (List Char))) ≠ none := by
  exact ⟨by decide, by decide⟩

/-- C8 (witness): the amended theorem applied to the embedding-failure
run. -/
theorem C8_failure_persistence_witness :
    ∃ chunks, App.chunk_text ([['a', 'b']].filter (fun t => !(strip t).isEmpty)) 400
        App.defaultSeparators = .ok chunks ∧
      (⟨some [['a', 'b']], none⟩ : App.FS)
        = ⟨some chunks, (⟨none, none⟩ : App.FS).faiss_index⟩ :=
  (C8_failure_persistence [['a', 'b']] 400 (fun _ => []) ⟨none, none⟩
    (.error .embeddingEmpty) ⟨some [['a', 'b']], none⟩ (by decide)).2 rfl

theorem nonWS_append (a b : List Char) : nonWS (a ++ b) = nonWS a ++ nonWS b := by
  simp [nonWS, List.filter_append]

namespace App

theorem nonWS_filter_keep (cks : List (List Char)) :
    nonWS ((cks.filter (fun c => !(strip c).isEmpty)).flatten) = nonWS cks.flatten := by
  induction cks with
  | nil => rfl
  | cons c cks ih =>
    rw [List.filter_cons]
    by_cases hc : (strip c).isEmpty
    · rw [if_neg (by simp [hc])]
      have hcn : nonWS c = [] := strip_eq_nil_nonWS (by simpa using hc)
      rw [ih, List.flatten_cons, nonWS_append, hcn, List.nil_append]
    · rw [if_pos (by simpa using hc)]
      rw [List.flatten_cons, List.flatten_cons, nonWS_append, nonWS_append, ih]

theorem nonWS_chunk_text_chunks_sublist (pages : List (List Char)) (max_len : Nat)
    (separators : List (List Char)) :
    (nonWS ((chunk_text_chunks pages max_len separators).flatten)).Sublist
      (nonWS pages.flatten) := by
  induction pages with
  | nil => simp [chunk_text_chunks, nonWS]
  | cons pg pages ih =>
    rw [chunk_text_chunks, List.map_cons, List.flatten_cons, List.flatten_append,
      nonWS_append, List.flatten_cons, nonWS_append]
    exact List.Sublist.append
      (by rw [nonWS_filter_keep]; exact nonWS_recursive_chunk_sublist pg separators max_len)
      ih

theorem nonWS_chunk_text_chunks_eq (pages : List (List Char)) (max_len : Nat)
    (separators : List (List Char))
    (hws : ∀ s ∈ separators, ∀ c ∈ s, pySpace c = true) :
    nonWS ((chunk_text_chunks pages max_len separators).flatten)
      = nonWS pages.flatten := by
  induction pages with
  | nil => rfl
  | cons pg pages ih =>
    rw [chunk_text_chunks, List.map_cons, List.flatten_cons, List.flatten_append,
      nonWS_append, List.flatten_cons, nonWS_append]
    rw [nonWS_filter_keep, nonWS_recursive_chunk_eq pg separators max_len hws]
    exact congrArg (fun l => nonWS pg ++ l) ih

end App

/-- C1 (amended): concatenating all chunks yields the input's
non-whitespace characters in original order, each at most once, with no
content invented (a sublist); coverage is exact when every separator is
whitespace-only, but splitting consumes separator occurrences, so
non-whitespace separator characters such as '.' are dropped — see the
counterexample. -/
theorem C1_chunk_coverage (pages : List (List Char)) (max_len : Nat)
    (separators : List (List Char)) :
    (nonWS ((App.chunk_text_chunks pages max_len separators).flatten)).Sublist
      (nonWS pages.flatten) ∧
    ((∀ s ∈ separators, ∀ c ∈ s, pySpace c = true) →
      nonWS ((App.chunk_text_chunks pages max_len separators).flatten)
        = nonWS pages.flatten) :=
  ⟨App.nonWS_chunk_text_chunks_sublist pages max_len separators,
    fun hws => App.nonWS_chunk_text_chunks_eq pages max_len separators hws⟩

/-- C1 (counterexample): with the default separators, the page "aa.bb"
at chunk size 2 chunks to ["aa", "bb"]: the non-whitespace character '.'
is dropped, so concatenation does not reproduce every non-whitespace
character of the input. -/
theorem C1_chunk_coverage_cex :
    App.chunk_text [['a', 'a', '.', 'b', 'b']] 2 App.defaultSeparators
      = .ok [['a', 'a'], ['b', 'b']] ∧
    nonWS (([['a', 'a'], ['b', 'b']] : List (List Char)).flatten) = ['a', 'a', 'b', 'b'] ∧
    nonWS (([['a', 'a', '.', 'b', 'b']] : List (List Char)).flatten)
      = ['a', 'a', '.', 'b', 'b'] ∧
    (['a', 'a', 'b', 'b'] : List Char) ≠ ['a', 'a', '.', 'b', 'b'] := by
  exact ⟨by decide, by decide, by decide, by decide⟩

/-- C1 (witness): on a page whose only separator occurrences are
whitespace, the amended theorem's exact-coverage clause applies. -/
theorem C1_chunk_coverage_witness :
    (nonWS ((App.chunk_text_chunks [[' ', 'a', '\n', '\n', 'b']] 1 [['\n', '\n']]).flatten)).Sublist
      (nonWS ([[' ', 'a', '\n', '\n', 'b']] : List (List Char)).flatten) ∧
    nonWS ((App.chunk_text_chunks [[' ', 'a', '\n', '\n', 'b']] 1 [['\n', '\n']]).flatten)
      = nonWS ([[' ', 'a', '\n', '\n', 'b']] : List (List Char)).flatten :=
  ⟨(C1_chunk_coverage [[' ', 'a', '\n', '\n', 'b']] 1 [['\n', '\n']]).1,
    (C1_chunk_coverage [[' ', 'a', '\n', '\n', 'b']] 1 [['\n', '\n']]).2 (by decide)⟩

/-- C6: every chunk emitted by the recursive chunker is within the length
bound, or none of the given (non-empty) separators occurs in it — the
chunker's own splitter returns it whole for every separator in the list,
which happens exactly for oversized parts that survive to the end of the
separator list. -/
theorem C6_chunk_bound_or_atomic (text : List Char) (seps : List (List Char))
    (max_len : Nat) (hs : ∀ s ∈ seps, s ≠ []) :
    ∀ c ∈ App.recursive_chunk text seps max_len,
      c.length ≤ max_len ∨ ∀ s ∈ seps, splitOn s c = [c] :=
  App.recursive_chunk_bound text seps max_len hs

/-- C6 (witness): chunking "abcd.e" at bound 3 emits the oversized atomic
chunk "abcd", unsplittable by either default separator. -/
theorem C6_chunk_bound_or_atomic_witness :
    ['a', 'b', 'c', 'd'].length ≤ 3 ∨
      ∀ s ∈ App.defaultSeparators, splitOn s ['a', 'b', 'c', 'd'] = [['a', 'b', 'c', 'd']] :=
  C6_chunk_bound_or_atomic ['a', 'b', 'c', 'd', '.', 'e'] App.defaultSeparators 3
    (by decide) ['a', 'b', 'c', 'd'] (by decide)
